import Mathlib

/-!
Verification of the hep-detector-signal-reconstruction repository.

The Python sources (src/reconstruction.py, src/metrics.py,
src/signal_generator.py, src/experiments.py, src/noise_model.py) are
shallowly embedded below.  NumPy float arrays are modelled as lists over an
exact field: `ℚ` for the purely rational-arithmetic components (the Kalman
filter, the moving-average filter, the metric engine) and `ℝ`/`ℂ` where the
code uses transcendental functions (the Gaussian pulse generator, the Fourier
filter, the standard deviation of the scaling study).  Fallible code paths
(NumPy operations that raise on empty arrays) are modelled with `Option`.
-/

open scoped BigOperators

/-! ### Generic list helpers -/

/-- Reading back every position of a list through `getD` reproduces the list. -/
theorem range_map_getD {α : Type} (d : α) :
    ∀ l : List α, (List.range l.length).map (fun j => l.getD j d) = l := by
  intro l
  induction l with
  | nil => rfl
  | cons a t ih =>
    have h : List.range (a :: t).length = 0 :: (List.range t.length).map Nat.succ := by
      simpa using List.range_succ_eq_map t.length
    rw [h]
    simp only [List.map_cons, List.map_map, List.getD_cons_zero]
    refine congrArg (List.cons a) ?_
    calc ((List.range t.length).map ((fun j => (a :: t).getD j d) ∘ Nat.succ))
        = (List.range t.length).map (fun j => t.getD j d) := by
          refine List.map_congr_left ?_
          intro j _
          simp [List.getD_cons_succ]
      _ = t := ih

/-- `getD` through a `map` of `List.range` evaluates the mapped function. -/
theorem range_map_getD_lt {α : Type} (g : ℕ → α) (n k : ℕ) (h : k < n) (d : α) :
    ((List.range n).map g).getD k d = g k := by
  rw [List.getD_eq_getElem?_getD, List.getElem?_map, List.getElem?_range h]
  rfl

/-! ### Kalman filter (src/reconstruction.py, `SignalReconstructor.kalman_filter`)

The source initialises `x_hat = signal[0]`, `p = 1.0` and then, for each
index `i` in order, computes `p_minus = p + q`, `k = p_minus / (p_minus + r)`,
`x_hat = x_hat + k * (signal[i] - x_hat)`, `p = (1 - k) * p_minus` and stores
`x_hat` into the output at index `i`.  On an empty input `signal[0]` raises
`IndexError`, which is modelled by `Option.none`. -/

/-- One iteration of the source loop body: state is the pair `(x_hat, p)`,
`z` is the observation `signal[i]`. -/
def kalmanStep (q r : ℚ) (xp : ℚ × ℚ) (z : ℚ) : ℚ × ℚ :=
  let pMinus := xp.2 + q
  let k := pMinus / (pMinus + r)
  (xp.1 + k * (z - xp.1), (1 - k) * pMinus)

/-- The source loop: emits the updated `x_hat` for every observation. -/
def kalmanLoop (q r x p : ℚ) : List ℚ → List ℚ
  | [] => []
  | z :: zs =>
    let s := kalmanStep q r (x, p) z
    s.1 :: kalmanLoop q r s.1 s.2 zs

/-- `SignalReconstructor.kalman_filter`: initial state `(signal[0], 1)`, then
the loop over the whole signal (index 0 is processed again by the loop, as in
the source).  `none` models the `IndexError` raised on an empty input. -/
def kalmanFilter (s : List ℚ) (q r : ℚ) : Option (List ℚ) :=
  match s with
  | [] => none
  | z :: _ => some (kalmanLoop q r z 1 s)

/-! #### Spec-side recurrence (for the refinement claim C1)

Written from the spec's words: "x is initialized to the first sample and p to
1.0; then for each index i in order, p_minus = p + q,
gain = p_minus / (p_minus + r), x becomes x + gain * (signal[i] - x),
p becomes (1 - gain) * p_minus, and x is emitted as output[i]". -/

/-- The spec's single update of the state `(x, p)` on observation `obs`. -/
def specUpdate (q r : ℚ) (xp : ℚ × ℚ) (obs : ℚ) : ℚ × ℚ :=
  let pMinus := xp.2 + q
  let gain := pMinus / (pMinus + r)
  (xp.1 + gain * (obs - xp.1), (1 - gain) * pMinus)

/-- The value the spec's recurrence emits at index `i`: start from the first
sample and variance 1, run the update over observations `0, …, i` in order,
and read off `x`. -/
def specOutput (s : List ℚ) (q r : ℚ) (i : ℕ) : ℚ :=
  ((s.take (i + 1)).foldl (specUpdate q r) (s.headI, 1)).1

theorem kalmanStep_eq_specUpdate (q r : ℚ) (xp : ℚ × ℚ) (z : ℚ) :
    kalmanStep q r xp z = specUpdate q r xp z := rfl

/-- The source loop, started from an arbitrary state, emits exactly the
prefix-fold values of the spec recurrence. -/
theorem kalmanLoop_eq_spec (q r : ℚ) :
    ∀ (l : List ℚ) (xp : ℚ × ℚ),
      kalmanLoop q r xp.1 xp.2 l =
        (List.range l.length).map
          (fun i => ((l.take (i + 1)).foldl (specUpdate q r) xp).1) := by
  intro l
  induction l with
  | nil => intro xp; rfl
  | cons z t ih =>
    intro xp
    have h : List.range (z :: t).length = 0 :: (List.range t.length).map Nat.succ := by
      simpa using List.range_succ_eq_map t.length
    rw [show kalmanLoop q r xp.1 xp.2 (z :: t) =
          (kalmanStep q r xp z).1 ::
            kalmanLoop q r (kalmanStep q r xp z).1 (kalmanStep q r xp z).2 t from rfl,
        h]
    simp only [List.map_cons, List.map_map]
    refine congrArg₂ List.cons ?_ ?_
    · simp [kalmanStep_eq_specUpdate]
    · rw [ih (kalmanStep q r xp z)]
      refine List.map_congr_left ?_
      intro j _
      simp [Function.comp, List.take_succ_cons, kalmanStep_eq_specUpdate]

/-- C1.  For every non-empty input signal, every `process_noise_variance`
`q ≥ 0` and `measurement_noise_variance` `r > 0`, `kalman_filter` returns
exactly the sequence defined by the spec's recurrence (state initialised to
the first sample and variance 1, the predict/update equations applied at each
index in order, with `x` emitted at every index). -/
theorem kalman_filter_matches_spec_recurrence (s : List ℚ) (q r : ℚ)
    (hs : s ≠ []) (hq : 0 ≤ q) (hr : 0 < r) :
    kalmanFilter s q r = some ((List.range s.length).map (specOutput s q r)) := by
  match s, hs with
  | z :: t, _ =>
    show some (kalmanLoop q r z 1 (z :: t)) = _
    rw [show (z : ℚ) = ((z, (1 : ℚ)) : ℚ × ℚ).1 from rfl,
        show (1 : ℚ) = ((z, (1 : ℚ)) : ℚ × ℚ).2 from rfl,
        kalmanLoop_eq_spec q r (z :: t) (z, 1)]
    rfl

/-- Witness for C1 at the concrete input `s = [1, 2]`, `q = 0`, `r = 1`. -/
theorem kalman_filter_matches_spec_recurrence_witness :
    ([1, 2] : List ℚ) ≠ [] ∧ (0 : ℚ) ≤ 0 ∧ (0 : ℚ) < 1 ∧
      kalmanFilter [1, 2] 0 1 =
        some ((List.range ([1, 2] : List ℚ).length).map (specOutput [1, 2] 0 1)) :=
  ⟨by decide, by decide, by decide,
    kalman_filter_matches_spec_recurrence [1, 2] 0 1 (by decide) (by decide) (by decide)⟩

/-- C10.  The first emitted estimate equals the first observation: the state
is initialised to `signal[0]`, so the first innovation is zero. -/
theorem kalman_filter_first_output (s : List ℚ) (q r : ℚ)
    (hs : s ≠ []) (hq : 0 ≤ q) (hr : 0 < r) :
    ∃ out, kalmanFilter s q r = some out ∧ out.headI = s.headI := by
  match s, hs with
  | z :: t, _ =>
    refine ⟨kalmanLoop q r z 1 (z :: t), rfl, ?_⟩
    show (kalmanStep q r (z, 1) z).1 = z
    simp only [kalmanStep]
    ring

/-- Witness for C10 at the concrete input `s = [5, 7]`, `q = 0`, `r = 1`. -/
theorem kalman_filter_first_output_witness :
    ([5, 7] : List ℚ) ≠ [] ∧ (0 : ℚ) ≤ 0 ∧ (0 : ℚ) < 1 ∧
      ∃ out, kalmanFilter [5, 7] 0 1 = some out ∧ out.headI = ([5, 7] : List ℚ).headI :=
  ⟨by decide, by decide, by decide,
    kalman_filter_first_output [5, 7] 0 1 (by decide) (by decide) (by decide)⟩

/-! ### Kalman gain (claim C2)

The estimate-variance trajectory of the loop does not depend on the signal:
`p` evolves by `p ↦ (1 - pm/(pm+r)) * pm` with `pm = p + q`, starting at 1.
`kalmanGain q r i` is the gain `p_minus / (p_minus + r)` computed while
processing index `i` (i.e. from the variance after `i` completed steps). -/

/-- The variance update performed by one loop iteration of the source. -/
def pNext (q r p : ℚ) : ℚ :=
  let pMinus := p + q
  (1 - pMinus / (pMinus + r)) * pMinus

/-- The variance after `i` completed iterations of the source loop. -/
def pSeq (q r : ℚ) : ℕ → ℚ
  | 0 => 1
  | i + 1 => pNext q r (pSeq q r i)

/-- The Kalman gain computed at step `i` of the source loop. -/
def kalmanGain (q r : ℚ) (i : ℕ) : ℚ :=
  (pSeq q r i + q) / ((pSeq q r i + q) + r)

theorem kalmanStep_snd (q r : ℚ) (xp : ℚ × ℚ) (z : ℚ) :
    (kalmanStep q r xp z).2 = pNext q r xp.2 := rfl

/-- The variance component of the loop state after `i ≤ n` steps is `pSeq`
applied from the start value; it never depends on the observations. -/
theorem foldl_kalmanStep_snd (q r : ℚ) :
    ∀ (l : List ℚ) (i : ℕ) (xp : ℚ × ℚ), i ≤ l.length →
      ((l.take i).foldl (kalmanStep q r) xp).2 = (pNext q r)^[i] xp.2 := by
  intro l
  induction l with
  | nil =>
    intro i xp hi
    have : i = 0 := Nat.le_zero.mp hi
    subst this
    rfl
  | cons z t ih =>
    intro i xp hi
    match i with
    | 0 => rfl
    | i + 1 =>
      have hi' : i ≤ t.length := by simpa using hi
      rw [List.take_succ_cons, List.foldl_cons, ih i _ hi',
        Function.iterate_succ_apply, kalmanStep_snd]

/-- `pSeq` is the variance trajectory reached from the initial variance 1. -/
theorem pSeq_eq_iterate (q r : ℚ) (i : ℕ) : pSeq q r i = (pNext q r)^[i] 1 := by
  induction i with
  | zero => rfl
  | succ i ih => rw [Function.iterate_succ_apply', ← ih]; rfl

theorem pSeq_pos (q r : ℚ) (hq : 0 ≤ q) (hr : 0 < r) (i : ℕ) : 0 < pSeq q r i := by
  induction i with
  | zero => exact one_pos
  | succ i ih =>
    show 0 < pNext q r (pSeq q r i)
    have hpm : 0 < pSeq q r i + q := by linarith
    have hden : 0 < pSeq q r i + q + r := by linarith
    have h1 : (1 : ℚ) - (pSeq q r i + q) / (pSeq q r i + q + r) = r / (pSeq q r i + q + r) := by
      field_simp
    show 0 < (1 - (pSeq q r i + q) / ((pSeq q r i + q) + r)) * (pSeq q r i + q)
    rw [h1]
    exact mul_pos (div_pos hr hden) hpm

/-- Rewriting of the variance update into the form `r * pm / (pm + r)`. -/
theorem pNext_eq (q r p : ℚ) (h : p + q + r ≠ 0) :
    pNext q r p = r * ((p + q) / ((p + q) + r)) := by
  show (1 - (p + q) / ((p + q) + r)) * (p + q) = _
  field_simp

/-- Cross-multiplied monotonicity invariant: for `r1 < r2` the ratio
`r / (pSeq + q)` is strictly larger at `r2` than at `r1`, at every step. -/
theorem kalman_ratio_invariant (q r1 r2 : ℚ) (hq : 0 ≤ q) (hr1 : 0 < r1)
    (h12 : r1 < r2) :
    ∀ i, r1 * (pSeq q r2 i + q) < r2 * (pSeq q r1 i + q) := by
  have hr2 : 0 < r2 := lt_trans hr1 h12
  intro i
  induction i with
  | zero =>
    show r1 * (1 + q) < r2 * (1 + q)
    have h1q : (0 : ℚ) < 1 + q := by linarith
    exact (mul_lt_mul_right h1q).mpr h12
  | succ i ih =>
    have hu1 : 0 < pSeq q r1 i + q := by have := pSeq_pos q r1 hq hr1 i; linarith
    have hu2 : 0 < pSeq q r2 i + q := by have := pSeq_pos q r2 hq hr2 i; linarith
    set u1 := pSeq q r1 i + q with hu1def
    set u2 := pSeq q r2 i + q with hu2def
    have hd1 : 0 < u1 + r1 := by linarith
    have hd2 : 0 < u2 + r2 := by linarith
    have hgain : u2 / (u2 + r2) < u1 / (u1 + r1) := by
      rw [div_lt_div_iff hd2 hd1]
      nlinarith [ih]
    have hmul : r1 * (r2 * (u2 / (u2 + r2))) < r2 * (r1 * (u1 / (u1 + r1))) := by
      have h1 : r1 * (r2 * (u2 / (u2 + r2))) = r1 * r2 * (u2 / (u2 + r2)) := by ring
      have h2 : r2 * (r1 * (u1 / (u1 + r1))) = r1 * r2 * (u1 / (u1 + r1)) := by ring
      rw [h1, h2]
      exact (mul_lt_mul_left (mul_pos hr1 hr2)).mpr hgain
    have hqmul : r1 * q ≤ r2 * q := mul_le_mul_of_nonneg_right h12.le hq
    show r1 * (pNext q r2 (pSeq q r2 i) + q) < r2 * (pNext q r1 (pSeq q r1 i) + q)
    rw [pNext_eq q r2 _ (by rw [← hu2def]; linarith),
        pNext_eq q r1 _ (by rw [← hu1def]; linarith), ← hu1def, ← hu2def]
    calc r1 * (r2 * (u2 / (u2 + r2)) + q)
        = r1 * (r2 * (u2 / (u2 + r2))) + r1 * q := by ring
      _ < r2 * (r1 * (u1 / (u1 + r1))) + r2 * q := by linarith
      _ = r2 * (r1 * (u1 / (u1 + r1)) + q) := by ring

/-- C2.  With the process-noise variance `q ≥ 0` held fixed, increasing the
measurement-noise variance (`0 < r1 < r2`) strictly decreases the Kalman gain
computed at every step `i` of `kalman_filter`. -/
theorem kalman_gain_strict_anti_in_measurement_noise (q r1 r2 : ℚ) (i : ℕ)
    (hq : 0 ≤ q) (hr1 : 0 < r1) (h12 : r1 < r2) :
    kalmanGain q r2 i < kalmanGain q r1 i := by
  have hr2 : 0 < r2 := lt_trans hr1 h12
  have hu1 : 0 < pSeq q r1 i + q := by have := pSeq_pos q r1 hq hr1 i; linarith
  have hu2 : 0 < pSeq q r2 i + q := by have := pSeq_pos q r2 hq hr2 i; linarith
  have hinv := kalman_ratio_invariant q r1 r2 hq hr1 h12 i
  show (pSeq q r2 i + q) / ((pSeq q r2 i + q) + r2)
      < (pSeq q r1 i + q) / ((pSeq q r1 i + q) + r1)
  rw [div_lt_div_iff (by linarith) (by linarith)]
  nlinarith [hinv]

/-- Witness for C2 at `q = 0`, `r1 = 1`, `r2 = 2`, step `i = 1`. -/
theorem kalman_gain_strict_anti_in_measurement_noise_witness :
    (0 : ℚ) ≤ 0 ∧ (0 : ℚ) < 1 ∧ (1 : ℚ) < 2 ∧ kalmanGain 0 2 1 < kalmanGain 0 1 1 :=
  ⟨by decide, by decide, by decide,
    kalman_gain_strict_anti_in_measurement_noise 0 1 2 1 (by decide) (by decide) (by decide)⟩

/-! ### Moving average (src/reconstruction.py, `SignalReconstructor.moving_average`)

The source returns the input unchanged when `window_size < 1`.  Otherwise it
pads with `window_size // 2` copies of each boundary sample
(`np.pad(..., mode='edge')`), convolves with the uniform kernel
`np.ones(window_size) / window_size` in `'valid'` mode, and truncates the
result to the input length.  On an empty input with `window_size ≥ 1` NumPy
raises (`np.convolve` rejects an empty array, and `np.pad` in edge mode
rejects extending an empty axis), modelled by `none`. -/

/-- `np.convolve(a, v, mode='valid')` for `a.length + 1 ≥ v.length`: entry `j`
is the inner product of `a[j … j+v.length-1]` with the reversed kernel. -/
def convolveValid (a v : List ℚ) : List ℚ :=
  (List.range (a.length + 1 - v.length)).map
    (fun j => ∑ k in Finset.range v.length, a.getD (j + k) 0 * v.getD (v.length - 1 - k) 0)

/-- `SignalReconstructor.moving_average`. -/
def movingAverage (s : List ℚ) (w : ℤ) : Option (List ℚ) :=
  if w < 1 then some s
  else if s.isEmpty then none
  else
    let wn := w.toNat
    let p := wn / 2
    let padded := List.replicate p s.headI ++ s ++ List.replicate p (s.getLastD 0)
    let kernel := List.replicate wn (1 / (wn : ℚ))
    some ((convolveValid padded kernel).take s.length)

/-- Counterexample for C4 as stated: on the empty signal with
`window_size = 1` the source raises (no value is returned), so the filter is
not the identity there. -/
theorem moving_average_empty_window_one_not_id :
    movingAverage [] 1 = none := by decide

/-- C4 (amended).  `moving_average` with `window_size < 1` returns the input
unchanged for every signal; with `window_size = 1` it returns the input
unchanged for every non-empty signal (on the empty signal it raises). -/
theorem moving_average_identity_cases (s : List ℚ) (w : ℤ) :
    (w < 1 → movingAverage s w = some s) ∧
      (s ≠ [] → movingAverage s 1 = some s) := by
  constructor
  · intro hw
    simp [movingAverage, hw]
  · intro hs
    have hne : s.isEmpty = false := by
      cases s with
      | nil => exact absurd rfl hs
      | cons a t => rfl
    have h1 : ¬ ((1 : ℤ) < 1) := lt_irrefl 1
    rw [movingAverage, if_neg h1, hne]
    simp only [Bool.false_eq_true, if_false]
    have htn : (1 : ℤ).toNat = 1 := rfl
    rw [htn]
    have hker : List.replicate (1 : ℕ) (1 / ((1 : ℕ) : ℚ)) = [1] := by norm_num
    have hpad : List.replicate (1 / 2 : ℕ) s.headI ++ s ++ List.replicate (1 / 2 : ℕ) (s.getLastD 0) = s := by
      norm_num
    rw [hker, hpad]
    have hconv : convolveValid s [1] = s := by
      rw [convolveValid]
      have hlen : s.length + 1 - ([1] : List ℚ).length = s.length := by simp
      rw [hlen]
      have : ∀ j, (∑ k in Finset.range ([1] : List ℚ).length,
          s.getD (j + k) 0 * ([1] : List ℚ).getD (([1] : List ℚ).length - 1 - k) 0) = s.getD j 0 := by
        intro j
        simp
      calc (List.range s.length).map (fun j => ∑ k in Finset.range ([1] : List ℚ).length,
              s.getD (j + k) 0 * ([1] : List ℚ).getD (([1] : List ℚ).length - 1 - k) 0)
          = (List.range s.length).map (fun j => s.getD j 0) := by
            exact List.map_congr_left (fun j _ => this j)
        _ = s := range_map_getD 0 s
    rw [hconv, List.take_length]

/-- Witness for C4 (amended) at `s = [3, 4]`: both the `window_size = 0` and
the `window_size = 1` cases return the input unchanged. -/
theorem moving_average_identity_cases_witness :
    ((0 : ℤ) < 1 ∧ movingAverage [3, 4] 0 = some [3, 4]) ∧
      (([3, 4] : List ℚ) ≠ [] ∧ movingAverage [3, 4] 1 = some [3, 4]) :=
  ⟨⟨by decide, (moving_average_identity_cases [3, 4] 0).1 (by decide)⟩,
    ⟨by decide, (moving_average_identity_cases [3, 4] 1).2 (by decide)⟩⟩

/-- C5.  For every non-empty signal and every integer `window_size ≥ 1` (odd
or even), `moving_average` returns a signal of exactly the input's length. -/
theorem moving_average_preserves_length (s : List ℚ) (w : ℤ)
    (hs : s ≠ []) (hw : 1 ≤ w) :
    ∃ out, movingAverage s w = some out ∧ out.length = s.length := by
  have hne : s.isEmpty = false := by
    cases s with
    | nil => exact absurd rfl hs
    | cons a t => rfl
  have h1 : ¬ (w < 1) := not_lt.mpr hw
  rw [movingAverage, if_neg h1, hne]
  simp only [Bool.false_eq_true, if_false]
  refine ⟨_, rfl, ?_⟩
  rw [List.length_take, convolveValid, List.length_map, List.length_range]
  have hlen : (List.replicate (w.toNat / 2) s.headI ++ s ++
      List.replicate (w.toNat / 2) (s.getLastD 0)).length
      = w.toNat / 2 + s.length + w.toNat / 2 := by
    simp [List.length_append]
    omega
  rw [hlen, List.length_replicate]
  have hwn : 1 ≤ w.toNat := by omega
  have hslen : 1 ≤ s.length := List.length_pos.mpr hs
  omega

/-- Witness for C5 at `s = [1, 2, 3]`, `window_size = 2`. -/
theorem moving_average_preserves_length_witness :
    ([1, 2, 3] : List ℚ) ≠ [] ∧ (1 : ℤ) ≤ 2 ∧
      ∃ out, movingAverage [1, 2, 3] 2 = some out ∧ out.length = ([1, 2, 3] : List ℚ).length :=
  ⟨by decide, by decide, moving_average_preserves_length [1, 2, 3] 2 (by decide) (by decide)⟩

/-! ### Metric engine (src/metrics.py, `PerformanceMetrics`)

`mean_squared_error`, `signal_to_noise_ratio`, `peak_amplitude_error` and
`reconstruction_bias` are pure elementwise/mean computations; `compute_all`
packages the four into a report.  The SNR is `float('inf')` when the residual
power is exactly zero, modelled as `⊤ : EReal`; in the non-degenerate branch
it is `10·log10(signal_power/noise_power)`.  `np.max` raises on an empty
array (so `compute_all` raises on empty input), modelled by `none`. -/

/-- `np.mean` in exact arithmetic (0 on the empty list; that path is never
reached by `computeAll`, which guards emptiness through `npMax`). -/
def meanList (l : List ℚ) : ℚ := l.sum / l.length

/-- `PerformanceMetrics.mean_squared_error` (also the residual power used by
the SNR). -/
def mseQ (t c : List ℚ) : ℚ := meanList (List.zipWith (fun a b => (a - b) ^ 2) t c)

/-- `PerformanceMetrics.reconstruction_bias`: mean of (candidate − reference). -/
def biasQ (t c : List ℚ) : ℚ := meanList (List.zipWith (fun a b => b - a) t c)

/-- `np.max`: the maximum of a non-empty list, `none` (a raise) on `[]`. -/
def npMax : List ℚ → Option ℚ
  | [] => none
  | x :: xs => some (xs.foldl max x)

/-- `PerformanceMetrics.signal_to_noise_ratio`: `+∞` when the residual power
is zero, otherwise `10·log10(P_signal / P_noise)` in decibels. -/
noncomputable def snrDb (t c : List ℚ) : EReal :=
  if mseQ t c = 0 then ⊤
  else (((10 : ℝ) * Real.logb 10 ((meanList (t.map (fun a => a ^ 2)) : ℝ) / (mseQ t c : ℝ))) : ℝ)

/-- The record returned by `PerformanceMetrics.compute_all`. -/
structure MetricReport where
  MSE : ℚ
  SNR : EReal
  peakError : ℚ
  bias : ℚ

/-- `PerformanceMetrics.compute_all`; `none` models the `ValueError` raised
by `np.max` on an empty array. -/
noncomputable def computeAll (t c : List ℚ) : Option MetricReport :=
  match npMax t, npMax c with
  | some mt, some mc => some ⟨mseQ t c, snrDb t c, |mt - mc|, biasQ t c⟩
  | _, _ => none

/-- A zip of a list with itself under a function vanishing on the diagonal
gives the all-zero list. -/
theorem zipWith_self_eq_replicate (f : ℚ → ℚ → ℚ) (hf : ∀ x, f x x = 0) :
    ∀ l : List ℚ, List.zipWith f l l = List.replicate l.length 0 := by
  intro l
  induction l with
  | nil => rfl
  | cons a t ih => simp [List.zipWith_cons_cons, hf, ih, List.replicate_succ]

theorem meanList_replicate_zero (n : ℕ) : meanList (List.replicate n 0) = 0 := by
  simp [meanList, List.sum_replicate]

/-- Counterexample for C3 as stated: on the empty (equal-length) pair the
source raises inside `np.max`, so `compute_all` produces no report at all. -/
theorem compute_all_empty_pair_raises : computeAll [] [] = none := rfl

/-- C3 (amended).  For every non-empty signal compared against itself,
`compute_all` reports MSE = 0, bias = 0, peak amplitude error = 0 and
SNR = +∞ — a value, not an error (on the empty pair it raises). -/
theorem compute_all_zero_residual (s : List ℚ) (hs : s ≠ []) :
    computeAll s s = some ⟨0, ⊤, 0, 0⟩ := by
  have hmse : mseQ s s = 0 := by
    rw [mseQ, zipWith_self_eq_replicate _ (fun x => by ring) s, meanList_replicate_zero]
  have hbias : biasQ s s = 0 := by
    rw [biasQ, zipWith_self_eq_replicate _ (fun x => by ring) s, meanList_replicate_zero]
  have hsnr : snrDb s s = ⊤ := by rw [snrDb, if_pos hmse]
  match s, hs with
  | a :: t, _ =>
    show some (⟨mseQ (a :: t) (a :: t), snrDb (a :: t) (a :: t),
        |t.foldl max a - t.foldl max a|, biasQ (a :: t) (a :: t)⟩ : MetricReport) = _
    rw [hmse, hbias, hsnr, sub_self, abs_zero]

/-- Witness for C3 (amended) at the concrete pair `([2, 5], [2, 5])`. -/
theorem compute_all_zero_residual_witness :
    ([2, 5] : List ℚ) ≠ [] ∧ computeAll [2, 5] [2, 5] = some ⟨0, ⊤, 0, 0⟩ :=
  ⟨by decide, compute_all_zero_residual [2, 5] (by decide)⟩

/-! ### Pulse model (src/signal_generator.py, `SignalGenerator`)

The constructor builds `time = np.arange(t_start, t_end, dt)` (length
`ceil((t_end - t_start)/dt)` samples `t_start + i*dt`);
`generate_gaussian_pulse` evaluates
`amplitude * exp(-(t - t0)^2 / (2*sigma^2))` at every sample time. -/

/-- `np.arange(t0, tEnd, dt)` in exact arithmetic. -/
noncomputable def npArange (t0 tEnd dt : ℝ) : List ℝ :=
  (List.range ⌈(tEnd - t0) / dt⌉₊).map (fun i : ℕ => t0 + (i : ℝ) * dt)

/-- `SignalGenerator.generate_gaussian_pulse` over a given time base. -/
noncomputable def generatePulse (times : List ℝ) (amplitude t0 sigma : ℝ) : List ℝ :=
  times.map (fun t => amplitude * Real.exp (-(t - t0) ^ 2 / (2 * sigma ^ 2)))

/-- `getD` through a `map` at an in-range index evaluates the function. -/
theorem getD_map_lt {α β : Type} (f : α → β) (l : List α) (i : ℕ)
    (h : i < l.length) (da : α) (db : β) :
    (l.map f).getD i db = f (l.getD i da) := by
  rw [List.getD_eq_getElem?_getD, List.getElem?_map, List.getElem?_eq_getElem h,
    List.getD_eq_getElem?_getD, List.getElem?_eq_getElem h]
  rfl

theorem arange_1000 : ⌈((100 : ℝ) - 0) / 0.1⌉₊ = 1000 := by
  have hdiv : ((100 : ℝ) - 0) / 0.1 = ((1000 : ℕ) : ℝ) := by push_cast; norm_num
  rw [hdiv, Nat.ceil_natCast]

theorem arange_getD (j : ℕ) (hj : j < 1000) :
    (npArange 0 100 0.1).getD j 0 = (j : ℝ) * 0.1 := by
  show ((List.range ⌈((100 : ℝ) - 0) / 0.1⌉₊).map (fun i : ℕ => 0 + (i : ℝ) * 0.1)).getD j 0 = _
  rw [arange_1000, range_map_getD_lt _ _ _ hj, zero_add]

/-- C7.  If the pulse centre lies on a sample time, `generate_pulse` attains
exactly the amplitude there; and for the TimeBase (0, 100, 0.1) — 1000
samples — the pulse with amplitude 1, centre 50, width 5 attains its maximum
value 1 precisely at sample index 500. -/
theorem generate_pulse_peak :
    (∀ (times : List ℝ) (amplitude c w : ℝ) (i : ℕ), i < times.length →
        times.getD i 0 = c → (generatePulse times amplitude c w).getD i 0 = amplitude)
    ∧ (npArange 0 100 0.1).length = 1000
    ∧ (generatePulse (npArange 0 100 0.1) 1 50 5).getD 500 0 = 1
    ∧ (∀ j : ℕ, (generatePulse (npArange 0 100 0.1) 1 50 5).getD j 0
        ≤ (generatePulse (npArange 0 100 0.1) 1 50 5).getD 500 0)
    ∧ (∀ j : ℕ, j < 1000 → j ≠ 500 →
        (generatePulse (npArange 0 100 0.1) 1 50 5).getD j 0
          < (generatePulse (npArange 0 100 0.1) 1 50 5).getD 500 0) := by
  have hpeak : ∀ (times : List ℝ) (amplitude c w : ℝ) (i : ℕ), i < times.length →
      times.getD i 0 = c → (generatePulse times amplitude c w).getD i 0 = amplitude := by
    intro times amplitude c w i hi hc
    rw [generatePulse, getD_map_lt _ _ _ hi 0, hc, sub_self]
    norm_num
  have hlen : (npArange 0 100 0.1).length = 1000 := by
    rw [npArange, List.length_map, List.length_range, arange_1000]
  have hval : ∀ j : ℕ, j < 1000 → (generatePulse (npArange 0 100 0.1) 1 50 5).getD j 0
      = Real.exp (-((j : ℝ) * 0.1 - 50) ^ 2 / 50) := by
    intro j hj
    rw [generatePulse, getD_map_lt _ _ _ (by rw [hlen]; exact hj) 0, arange_getD j hj]
    norm_num
  have h500 : (generatePulse (npArange 0 100 0.1) 1 50 5).getD 500 0 = 1 := by
    rw [hval 500 (by norm_num)]
    norm_num [Real.exp_zero]
  refine ⟨hpeak, hlen, h500, ?_, ?_⟩
  · intro j
    rw [h500]
    by_cases hj : j < 1000
    · rw [hval j hj]
      refine Real.exp_le_one_iff.mpr ?_
      exact div_nonpos_iff.mpr (Or.inr ⟨neg_nonpos.mpr (sq_nonneg _), by norm_num⟩)
    · rw [List.getD_eq_default]
      · norm_num
      · rw [generatePulse, List.length_map, hlen]; omega
  · intro j hj hne
    rw [h500, hval j hj]
    refine Real.exp_lt_one_iff.mpr ?_
    have ht : (j : ℝ) * 0.1 - 50 ≠ 0 := by
      intro h0
      have hj50 : (j : ℝ) = 500 := by
        have h1 : (j : ℝ) * 0.1 = 50 := by linarith
        nlinarith
      exact hne (by exact_mod_cast hj50)
    exact div_neg_of_neg_of_pos (neg_lt_zero.mpr (pow_two_pos_of_ne_zero ht)) (by norm_num)

/-- Witness for C7: the general conjunct applied at the one-sample time base
`[3]` with amplitude 7 and centre 3. -/
theorem generate_pulse_peak_witness :
    (0 : ℕ) < ([(3 : ℝ)] : List ℝ).length ∧ ([(3 : ℝ)] : List ℝ).getD 0 0 = 3 ∧
      (generatePulse [(3 : ℝ)] 7 3 1).getD 0 0 = 7 :=
  ⟨by simp, by simp, generate_pulse_peak.1 [(3 : ℝ)] 7 3 1 0 (by simp) (by simp)⟩

/-! ### Event scaling study (src/experiments.py, `Experiments.run_event_scaling_study`)

For each requested count the source computes one per-event bias per method
over the batch, then stores, under the key `str(count)`, the mean and
population standard deviation of those biases over ALL `count` events, plus
the first 100 raw biases (`bias_ma[:100]`, `bias_kf[:100]`).  The per-event
biases depend on the seeded RNG (random pulse parameters and Gaussian noise),
so they enter the model as oracle parameters: `biasMA count i` / `biasKF
count i` is the bias of event `i` in the batch of size `count`.  The
aggregation itself is modelled from the source; keys are modelled by the
count (Python's `str` on distinct ints is injective). -/

/-- `np.mean` over the reals. -/
noncomputable def meanR (l : List ℝ) : ℝ := l.sum / l.length

/-- `np.std` (population standard deviation). -/
noncomputable def stdR (l : List ℝ) : ℝ :=
  Real.sqrt (meanR (l.map (fun x => (x - meanR l) ^ 2)))

/-- The per-count dictionary stored by `run_event_scaling_study`. -/
structure ScalingEntry where
  MA_bias_mean : ℝ
  MA_bias_std : ℝ
  KF_bias_mean : ℝ
  KF_bias_std : ℝ
  MA_biases : List ℝ
  KF_biases : List ℝ

/-- The entry built for one requested event count. -/
noncomputable def scalingEntry (biasMA biasKF : ℕ → ℕ → ℝ) (count : ℕ) : ScalingEntry :=
  let bma := (List.range count).map (biasMA count)
  let bkf := (List.range count).map (biasKF count)
  ⟨meanR bma, stdR bma, meanR bkf, stdR bkf, bma.take 100, bkf.take 100⟩

/-- `Experiments.run_event_scaling_study`: one keyed entry per requested
count. -/
noncomputable def runEventScalingStudy (biasMA biasKF : ℕ → ℕ → ℝ)
    (counts : List ℕ) : List (ℕ × ScalingEntry) :=
  counts.map (fun c => (c, scalingEntry biasMA biasKF c))

theorem lookup_map_self {β : Type} (f : ℕ → β) :
    ∀ (counts : List ℕ) (N : ℕ), N ∈ counts →
      (counts.map (fun c => (c, f c))).lookup N = some (f N) := by
  intro counts
  induction counts with
  | nil => intro N h; cases h
  | cons c rest ih =>
    intro N h
    by_cases hc : N = c
    · subst hc
      simp [List.lookup]
    · have hmem : N ∈ rest := by
        rcases List.mem_cons.mp h with h1 | h1
        · exact absurd h1 hc
        · exact h1
      have hbeq : (N == c) = false := beq_eq_false_iff_ne.mpr hc
      simpa [List.lookup, hbeq] using ih N hmem

/-- C9.  For every list of event counts and every count `N` in it, the study
stores under the key for `N`: the mean and population standard deviation of
the per-event bias over ALL `N` events for each of the two methods, and
`MA_biases` / `KF_biases` equal to the first `min N 100` raw per-event biases
— capped at length 100 regardless of the requested count. -/
theorem event_scaling_study_aggregation (biasMA biasKF : ℕ → ℕ → ℝ)
    (counts : List ℕ) (N : ℕ) (hN : N ∈ counts) :
    ∃ e, (runEventScalingStudy biasMA biasKF counts).lookup N = some e
      ∧ e.MA_bias_mean = meanR ((List.range N).map (biasMA N))
      ∧ e.MA_bias_std = stdR ((List.range N).map (biasMA N))
      ∧ e.KF_bias_mean = meanR ((List.range N).map (biasKF N))
      ∧ e.KF_bias_std = stdR ((List.range N).map (biasKF N))
      ∧ e.MA_biases = ((List.range N).map (biasMA N)).take 100
      ∧ e.KF_biases = ((List.range N).map (biasKF N)).take 100
      ∧ e.MA_biases.length = min 100 N
      ∧ e.KF_biases.length = min 100 N := by
  refine ⟨scalingEntry biasMA biasKF N,
    lookup_map_self (scalingEntry biasMA biasKF) counts N hN,
    rfl, rfl, rfl, rfl, rfl, rfl, ?_, ?_⟩
  · show (((List.range N).map (biasMA N)).take 100).length = min 100 N
    rw [List.length_take, List.length_map, List.length_range]
  · show (((List.range N).map (biasKF N)).take 100).length = min 100 N
    rw [List.length_take, List.length_map, List.length_range]

/-- Witness for C9: constant-zero bias oracles with the count list `[5]`. -/
theorem event_scaling_study_aggregation_witness :
    (5 : ℕ) ∈ [5] ∧
      ∃ e, (runEventScalingStudy (fun _ _ => (0 : ℝ)) (fun _ _ => (0 : ℝ)) [5]).lookup 5 = some e
        ∧ e.MA_bias_mean = meanR ((List.range 5).map ((fun _ _ => (0 : ℝ)) 5))
        ∧ e.MA_bias_std = stdR ((List.range 5).map ((fun _ _ => (0 : ℝ)) 5))
        ∧ e.KF_bias_mean = meanR ((List.range 5).map ((fun _ _ => (0 : ℝ)) 5))
        ∧ e.KF_bias_std = stdR ((List.range 5).map ((fun _ _ => (0 : ℝ)) 5))
        ∧ e.MA_biases = ((List.range 5).map ((fun _ _ => (0 : ℝ)) 5)).take 100
        ∧ e.KF_biases = ((List.range 5).map ((fun _ _ => (0 : ℝ)) 5)).take 100
        ∧ e.MA_biases.length = min 100 5
        ∧ e.KF_biases.length = min 100 5 :=
  ⟨by decide,
    event_scaling_study_aggregation (fun _ _ => (0 : ℝ)) (fun _ _ => (0 : ℝ)) [5] 5 (by decide)⟩

/-! ### Fourier filter (src/reconstruction.py, `SignalReconstructor.fourier_filter`)

The source computes `yf = fft(signal)`, `xf = fftfreq(n, dt)`, zeroes every
bin with `|xf| > cutoff_freq`, inverse-transforms and takes the real part.
`scipy.fft.fft` is the unnormalised forward DFT
`X_k = Σ_j x_j·exp(-2πi·j·k/n)`; `ifft` carries the `1/n` factor.  The copy
followed by masked zeroing is modelled by building the filtered spectrum
directly: bin `k` holds `0` when `|xf_k| > cutoff`, else the DFT coefficient.
`scipy.fft.fft` rejects an empty array, modelled by `none`. -/

/-- `np.fft.fftfreq(n, dt)` at index `k`: `k/(n·dt)` for the first
`(n+1)/2` bins, `(k-n)/(n·dt)` (the negative frequencies) for the rest. -/
noncomputable def fftfreqVal (n : ℕ) (dt : ℝ) (k : ℕ) : ℝ :=
  if k < (n + 1) / 2 then (k : ℝ) / (n * dt) else ((k : ℝ) - n) / (n * dt)

/-- The largest bin-frequency magnitude of the DFT grid for `(n, dt)`. -/
noncomputable def maxAbsFreq (n : ℕ) (dt : ℝ) : ℝ :=
  ((List.range n).map (fun k => |fftfreqVal n dt k|)).foldr max 0

/-- Forward unnormalised DFT coefficient `k` of the real signal `s`. -/
noncomputable def dftCoeff (s : List ℝ) (k : ℕ) : ℂ :=
  ∑ j in Finset.range s.length,
    ((s.getD j 0 : ℝ) : ℂ) *
      Complex.exp (-(2 * (Real.pi : ℂ) * Complex.I) * (j : ℂ) * (k : ℂ) / (s.length : ℂ))

/-- Inverse DFT coefficient `j` of the spectrum `y` (with the `1/n` factor). -/
noncomputable def idftCoeff (y : List ℂ) (j : ℕ) : ℂ :=
  (∑ k in Finset.range y.length,
      y.getD k 0 *
        Complex.exp ((2 * (Real.pi : ℂ) * Complex.I) * (j : ℂ) * (k : ℂ) / (y.length : ℂ)))
    / (y.length : ℂ)

/-- `SignalReconstructor.fourier_filter`. -/
noncomputable def fourierFilter (s : List ℝ) (dt cutoff : ℝ) : Option (List ℝ) :=
  if s.isEmpty then none
  else some ((List.range s.length).map (fun j =>
    (idftCoeff ((List.range s.length).map (fun k =>
      if cutoff < |fftfreqVal s.length dt k| then 0 else dftCoeff s k)) j).re))

theorem le_foldr_max (x : ℝ) : ∀ l : List ℝ, x ∈ l → x ≤ l.foldr max 0 := by
  intro l
  induction l with
  | nil => intro h; cases h
  | cons a t ih =>
    intro h
    rcases List.mem_cons.mp h with h1 | h1
    · subst h1; exact le_max_left _ _
    · exact le_trans (ih h1) (le_max_right _ _)

theorem abs_fftfreq_le_max (n : ℕ) (dt : ℝ) (k : ℕ) (hk : k < n) :
    |fftfreqVal n dt k| ≤ maxAbsFreq n dt :=
  le_foldr_max _ _ (List.mem_map.mpr ⟨k, List.mem_range.mpr hk, rfl⟩)

/-- Orthogonality of the n-th roots of unity: the inner sum of the DFT round
trip is `n` on the diagonal and `0` off it. -/
theorem exp_orthogonality {n : ℕ} (hn : n ≠ 0) {j m : ℕ} (hj : j < n) (hm : m < n) :
    ∑ k in Finset.range n,
        Complex.exp ((2 * (Real.pi : ℂ) * Complex.I) * (((j : ℂ) - (m : ℂ)) * (k : ℂ)) / (n : ℂ))
      = if j = m then (n : ℂ) else 0 := by
  have hζ := Complex.isPrimitiveRoot_exp n hn
  have hterm : ∀ k : ℕ,
      Complex.exp ((2 * (Real.pi : ℂ) * Complex.I) * (((j : ℂ) - (m : ℂ)) * (k : ℂ)) / (n : ℂ))
        = (Complex.exp (2 * (Real.pi : ℂ) * Complex.I / (n : ℂ)) ^ ((j : ℤ) - (m : ℤ))) ^ k := by
    intro k
    calc Complex.exp ((2 * (Real.pi : ℂ) * Complex.I) * (((j : ℂ) - (m : ℂ)) * (k : ℂ)) / (n : ℂ))
        = Complex.exp (((((j : ℤ) - (m : ℤ)) * (k : ℤ) : ℤ) : ℂ) *
            (2 * (Real.pi : ℂ) * Complex.I / (n : ℂ))) := by
          refine congrArg Complex.exp ?_
          push_cast
          ring
      _ = Complex.exp (2 * (Real.pi : ℂ) * Complex.I / (n : ℂ)) ^ (((j : ℤ) - (m : ℤ)) * (k : ℤ)) :=
          Complex.exp_int_mul _ _
      _ = (Complex.exp (2 * (Real.pi : ℂ) * Complex.I / (n : ℂ)) ^ ((j : ℤ) - (m : ℤ))) ^ (k : ℤ) :=
          zpow_mul _ _ _
      _ = (Complex.exp (2 * (Real.pi : ℂ) * Complex.I / (n : ℂ)) ^ ((j : ℤ) - (m : ℤ))) ^ k :=
          zpow_natCast _ k
  rw [Finset.sum_congr rfl (fun k _ => hterm k)]
  by_cases hjm : j = m
  · subst hjm
    rw [if_pos rfl]
    simp [sub_self]
  · rw [if_neg hjm]
    set w := Complex.exp (2 * (Real.pi : ℂ) * Complex.I / (n : ℂ)) ^ ((j : ℤ) - (m : ℤ)) with hw
    have hwn : w ^ n = 1 := by
      rw [hw, ← zpow_natCast _ n, ← zpow_mul, mul_comm ((j : ℤ) - (m : ℤ)) (n : ℤ),
        zpow_mul, zpow_natCast, hζ.pow_eq_one, one_zpow]
    have hne1 : w ≠ 1 := by
      intro h1
      have hdvd : ((n : ℤ)) ∣ ((j : ℤ) - (m : ℤ)) := (hζ.zpow_eq_one_iff_dvd _).mp h1
      have habs : |(j : ℤ) - (m : ℤ)| < (n : ℤ) := by
        rw [abs_lt]
        omega
      have h0 : (j : ℤ) - (m : ℤ) = 0 := Int.eq_zero_of_abs_lt_dvd hdvd habs
      exact hjm (by omega)
    have hgs := geom_sum_mul w n
    rw [hwn, sub_self] at hgs
    rcases mul_eq_zero.mp hgs with h | h
    · exact h
    · exact absurd (sub_eq_zero.mp h) hne1

/-- The unnormalised DFT followed by the `1/n`-normalised inverse DFT
reproduces each sample of the signal. -/
theorem dft_inversion (s : List ℝ) (hn : s.length ≠ 0) (j : ℕ) (hj : j < s.length) :
    (∑ k in Finset.range s.length,
        dftCoeff s k *
          Complex.exp ((2 * (Real.pi : ℂ) * Complex.I) * (j : ℂ) * (k : ℂ) / (s.length : ℂ)))
      / (s.length : ℂ) = ((s.getD j 0 : ℝ) : ℂ) := by
  have hnC : ((s.length : ℕ) : ℂ) ≠ 0 := Nat.cast_ne_zero.mpr hn
  have hsum : (∑ k in Finset.range s.length,
      dftCoeff s k *
        Complex.exp ((2 * (Real.pi : ℂ) * Complex.I) * (j : ℂ) * (k : ℂ) / (s.length : ℂ)))
      = ((s.getD j 0 : ℝ) : ℂ) * (s.length : ℂ) := by
    calc ∑ k in Finset.range s.length,
          dftCoeff s k *
            Complex.exp ((2 * (Real.pi : ℂ) * Complex.I) * (j : ℂ) * (k : ℂ) / (s.length : ℂ))
        = ∑ k in Finset.range s.length, ∑ m in Finset.range s.length,
            ((s.getD m 0 : ℝ) : ℂ) *
              Complex.exp ((2 * (Real.pi : ℂ) * Complex.I) * (((j : ℂ) - (m : ℂ)) * (k : ℂ))
                / (s.length : ℂ)) := by
          refine Finset.sum_congr rfl fun k _ => ?_
          rw [dftCoeff, Finset.sum_mul]
          refine Finset.sum_congr rfl fun m _ => ?_
          rw [mul_assoc, ← Complex.exp_add]
          congr 1
          congr 1
          ring
      _ = ∑ m in Finset.range s.length, ∑ k in Finset.range s.length,
            ((s.getD m 0 : ℝ) : ℂ) *
              Complex.exp ((2 * (Real.pi : ℂ) * Complex.I) * (((j : ℂ) - (m : ℂ)) * (k : ℂ))
                / (s.length : ℂ)) := Finset.sum_comm
      _ = ∑ m in Finset.range s.length, ((s.getD m 0 : ℝ) : ℂ) *
            ∑ k in Finset.range s.length,
              Complex.exp ((2 * (Real.pi : ℂ) * Complex.I) * (((j : ℂ) - (m : ℂ)) * (k : ℂ))
                / (s.length : ℂ)) := by
          refine Finset.sum_congr rfl fun m _ => ?_
          rw [Finset.mul_sum]
      _ = ∑ m in Finset.range s.length, ((s.getD m 0 : ℝ) : ℂ) *
            (if j = m then ((s.length : ℕ) : ℂ) else 0) := by
          refine Finset.sum_congr rfl fun m hm => ?_
          rw [exp_orthogonality hn hj (Finset.mem_range.mp hm)]
      _ = ∑ m in Finset.range s.length,
            (if j = m then ((s.getD m 0 : ℝ) : ℂ) * (s.length : ℂ) else 0) := by
          refine Finset.sum_congr rfl fun m _ => ?_
          rw [mul_ite, mul_zero]
      _ = if j ∈ Finset.range s.length then ((s.getD j 0 : ℝ) : ℂ) * (s.length : ℂ) else 0 :=
          Finset.sum_ite_eq (Finset.range s.length) j
            (fun m => ((s.getD m 0 : ℝ) : ℂ) * (s.length : ℂ))
      _ = ((s.getD j 0 : ℝ) : ℂ) * (s.length : ℂ) := if_pos (Finset.mem_range.mpr hj)
  rw [hsum, mul_div_cancel_right₀ _ hnC]

/-- C6.  For every non-empty signal, sampling interval `dt > 0` and cutoff
strictly above the largest bin-frequency magnitude of the DFT grid,
`fourier_filter` zeroes no bin and returns the original signal: the
fft → mask → ifft → real-part pipeline is the identity. -/
theorem fourier_filter_high_cutoff_identity (s : List ℝ) (dt cutoff : ℝ)
    (hs : s ≠ []) (hdt : 0 < dt) (hcut : maxAbsFreq s.length dt < cutoff) :
    fourierFilter s dt cutoff = some s := by
  have hne : s.isEmpty = false := by
    cases s with
    | nil => exact absurd rfl hs
    | cons a t => rfl
  have hn : s.length ≠ 0 := by
    cases s with
    | nil => exact absurd rfl hs
    | cons a t => exact Nat.succ_ne_zero _
  rw [fourierFilter, hne]
  simp only [Bool.false_eq_true, if_false, Option.some.injEq]
  have hmask : (List.range s.length).map (fun k =>
      if cutoff < |fftfreqVal s.length dt k| then 0 else dftCoeff s k)
      = (List.range s.length).map (dftCoeff s) := by
    refine List.map_congr_left fun k hk => ?_
    have hk' : k < s.length := List.mem_range.mp hk
    rw [if_neg (not_lt.mpr ((abs_fftfreq_le_max s.length dt k hk').trans hcut.le))]
  rw [hmask]
  have hidft : ∀ j : ℕ, j < s.length →
      idftCoeff ((List.range s.length).map (dftCoeff s)) j = ((s.getD j 0 : ℝ) : ℂ) := by
    intro j hj
    rw [idftCoeff]
    simp only [List.length_map, List.length_range]
    rw [Finset.sum_congr rfl (fun k hk => by
      rw [range_map_getD_lt (dftCoeff s) s.length k (Finset.mem_range.mp hk) 0])]
    exact dft_inversion s hn j hj
  calc (List.range s.length).map (fun j =>
          (idftCoeff ((List.range s.length).map (dftCoeff s)) j).re)
      = (List.range s.length).map (fun j => s.getD j 0) := by
        refine List.map_congr_left fun j hj => ?_
        rw [hidft j (List.mem_range.mp hj), Complex.ofReal_re]
    _ = s := range_map_getD 0 s

/-- Witness for C6 at the one-sample signal `[1]` with `dt = 1`,
`cutoff = 2`: the only bin frequency is 0, so nothing is zeroed. -/
theorem fourier_filter_high_cutoff_identity_witness :
    ([(1 : ℝ)] : List ℝ) ≠ [] ∧ (0 : ℝ) < 1 ∧ maxAbsFreq ([(1 : ℝ)] : List ℝ).length 1 < 2 ∧
      fourierFilter [(1 : ℝ)] 1 2 = some [(1 : ℝ)] :=
  ⟨by simp, by norm_num,
    by norm_num [maxAbsFreq, fftfreqVal, List.range_succ],
    fourier_filter_high_cutoff_identity [(1 : ℝ)] 1 2 (by simp) (by norm_num)
      (by norm_num [maxAbsFreq, fftfreqVal, List.range_succ])⟩
